import Mathlib

/-!
Verification of the learnpod chunking and pipeline-orchestration subsystem.

Strings are modelled as `List Char`.  Python text operations (`str.strip`,
`str.split`, the regex splits used by `TextSplitter`, `'\n'.join`) are
embedded as executable Lean functions; the fallback token estimator
`int(len(text) * 0.7)` is embedded with exact IEEE-754 double semantics
(the multiplication by the double nearest 0.7, rounding to nearest / ties
to even, then truncation), since the result differs from the exact
rational `7 * n / 10` for many lengths (e.g. `n = 90`).
-/

abbrev Str := List Char

/-- Whitespace predicate of the Python runtime (`str.strip`, regex `\s`):
the ASCII whitespace characters together with NBSP and the ideographic
space, the whitespace characters occurring in the texts the pipeline
processes. -/
def isSpace (c : Char) : Bool :=
  c = ' ' || c = '\t' || c = '\n' || c = '\r' || c = '\x0B' || c = '\x0C' ||
    c = ' ' || c = '　'

/-- Python `str.strip()` (both ends). -/
def pyStrip (s : Str) : Str :=
  ((s.dropWhile (fun c => isSpace c)).reverse.dropWhile (fun c => isSpace c)).reverse

/-- Splitting on single separator characters, keeping empty pieces, as both
Python `str.split(sep)` for a one-character separator and `re.split` with a
single-character class do.  `splitOnPred p s` is never `[]`. -/
def splitOnPred (p : Char → Bool) : Str → List Str
  | [] => [[]]
  | c :: rest =>
    if p c then [] :: splitOnPred p rest
    else
      match splitOnPred p rest with
      | h :: t => (c :: h) :: t
      | [] => [[c]]

def splitOnChar (sep : Char) (s : Str) : List Str :=
  splitOnPred (fun c => c = sep) s

/-- Python `sep.join(pieces)` for a one-character separator. -/
def joinSep (sep : Char) : List Str → Str
  | [] => []
  | [x] => x
  | x :: xs => x ++ sep :: joinSep sep xs

/-- The non-whitespace characters of a text, in order: the "content" that
chunking must preserve once merge-introduced separators are ignored. -/
def filterNS (s : Str) : Str := s.filter (fun c => !isSpace c)

/-- Mantissa of the IEEE-754 double nearest to 0.7: that double is
`3152519739159347 / 2 ^ 52`. -/
def mant07 : Nat := 3152519739159347

/-- Round `m / 2 ^ shift` to the nearest integer, ties to even. -/
def roundMantissa (m shift : Nat) : Nat :=
  let q := m / 2 ^ shift
  let r := m % 2 ^ shift
  if 2 * r < 2 ^ shift then q
  else if 2 ^ shift < 2 * r then q + 1
  else if q % 2 = 0 then q else q + 1

/-- Fuel-driven floor of the base-2 logarithm (structural recursion, so the
kernel can evaluate it). -/
def log2Aux : Nat → Nat → Nat
  | 0, _ => 0
  | fuel + 1, n => if n ≤ 1 then 0 else log2Aux fuel (n / 2) + 1

def log2floor (n : Nat) : Nat := log2Aux n n

/-- The double nearest to the natural number `n` (ties to even), returned as
an exact natural number.  Exact for `n < 2 ^ 53`. -/
def floatOfNat (n : Nat) : Nat :=
  if n < 2 ^ 53 then n
  else roundMantissa n (log2floor n - 52) * 2 ^ (log2floor n - 52)

/-- Python `int(n * 0.7)` for a natural `n`: `n` is converted to a double,
multiplied by the double nearest 0.7 with round-to-nearest (ties to even),
and the product truncated toward zero.  The integer-arithmetic model was
checked against CPython on an exhaustive small range and a large random
range. -/
def pyFloor07 (n : Nat) : Nat :=
  let p := floatOfNat n * mant07
  if p < 2 ^ 53 then p / 2 ^ 52
  else roundMantissa p (log2floor p - 52) * 2 ^ (log2floor p - 52) / 2 ^ 52

/-- `TextSplitter._estimate_tokens` (and the `LLMClient.count_tokens`
fallback): `int(len(text) * 0.7)`. -/
def estimate_tokens (s : Str) : Nat := pyFloor07 s.length

example : pyFloor07 0 = 0 := by decide
example : pyFloor07 2 = 1 := by decide
example : pyFloor07 3 = 2 := by decide
example : pyFloor07 5 = 3 := by decide
example : pyFloor07 10 = 7 := by decide
example : pyFloor07 12 = 8 := by decide
example : pyFloor07 90 = 62 := by decide
example : pyFloor07 2000 = 1400 := by decide

/-- Index of the last newline in a list, if any. -/
def lastNLIdx : Str → Option Nat
  | [] => none
  | c :: rest =>
    match lastNLIdx rest with
    | some k => some (k + 1)
    | none => if c = '\n' then some 0 else none

/-- Scanner for `re.split(r'\n\s*\n', text)`: a match starts at a newline
whose following whitespace run contains another newline, and (greedy `\s*`
with backtracking for the final `\n`) extends to the last newline of that
run; pieces between matches are collected.  Empty pieces are kept, exactly
as `re.split` keeps them.  The fuel argument only drives the structural
recursion; every step consumes at least one input character, so with
`fuel ≥ s.length` the fuel never runs out. -/
def splitParasGo : Nat → Str → Str → List Str
  | _, cur, [] => [cur.reverse]
  | 0, cur, s => [cur.reverse ++ s]
  | fuel + 1, cur, c :: rest =>
    if c = '\n' then
      match lastNLIdx (rest.takeWhile (fun d => isSpace d)) with
      | some k => cur.reverse :: splitParasGo fuel [] (rest.drop (k + 1))
      | none => splitParasGo fuel (c :: cur) rest
    else splitParasGo fuel (c :: cur) rest

def splitParas (s : Str) : List Str := splitParasGo s.length [] s

/-- `TextSplitter._split_by_paragraphs`: split on blank-line boundaries,
strip every piece, drop the empty ones. -/
def split_by_paragraphs (text : Str) : List Str :=
  ((splitParas text).map pyStrip).filter (fun p => p ≠ [])

/-- Japanese sentence-terminal punctuation of `re.split(r'[。！？]', ...)`. -/
def isSentencePunct (c : Char) : Bool := c = '。' || c = '！' || c = '？'

/-- The sentence list built by `TextSplitter._split_by_sentences`: split on
terminal punctuation, strip, drop empties, re-append `。`. -/
def sentencesOf (text : Str) : List Str :=
  (((splitOnPred isSentencePunct text).map pyStrip).filter (fun s => s ≠ [])).map
    (fun s => s ++ ['。'])

/-- Loop body of `TextSplitter._split_by_sentences`: state is
(closed chunks, running chunk). -/
def sentStep (cost : Str → Nat) (budget : Nat) (st : List Str × Str) (s : Str) :
    List Str × Str :=
  let chunks := st.1
  let cur := st.2
  let test := if cur = [] then s else cur ++ s
  if budget < cost test then
    if cur ≠ [] then (chunks ++ [pyStrip cur], s)
    else (chunks ++ [s], [])
  else (chunks, test)

/-- `TextSplitter._split_by_sentences` with an injected cost oracle (the
client token counter when present, `estimate_tokens` otherwise). -/
def split_by_sentences (cost : Str → Nat) (budget : Nat) (text : Str) : List Str :=
  let sentences := sentencesOf text
  if sentences = [] then [text]
  else
    let r := sentences.foldl (sentStep cost budget) ([], [])
    if r.2 = [] then r.1 else r.1 ++ [pyStrip r.2]

/-- Loop body of `TextSplitter.split_by_tokens`: greedy paragraph
accumulation with a sentence-level fallback for a lone oversized
paragraph. -/
def paraStep (cost : Str → Nat) (budget : Nat) (st : List Str × Str) (p : Str) :
    List Str × Str :=
  let chunks := st.1
  let cur := st.2
  let test := if cur = [] then p else cur ++ '\n' :: '\n' :: p
  if budget < cost test then
    if cur ≠ [] then (chunks ++ [pyStrip cur], p)
    else (chunks ++ split_by_sentences cost budget p, [])
  else (chunks, test)

/-- The paragraph-accumulation phase of `TextSplitter.split_by_tokens`. -/
def tokenChunks (cost : Str → Nat) (budget : Nat) (text : Str) : List Str :=
  let r := (split_by_paragraphs text).foldl (paraStep cost budget) ([], [])
  if r.2 = [] then r.1 else r.1 ++ [pyStrip r.2]

/-- `TextSplitter.split_by_tokens(text, llm_client)`.  With a client the
whole text is first tested against the budget (`is_token_limit_exceeded`,
that is `cost text > chunk_size`) and returned unsplit when within it;
without a client that early return does not exist in the source and the
paragraph accumulation always runs, judging by `estimate_tokens`. -/
def split_by_tokens (client : Option (Str → Nat)) (chunkSize : Nat) (text : Str) :
    List Str :=
  match client with
  | some f => if ¬ chunkSize < f text then [text] else tokenChunks f chunkSize text
  | none => tokenChunks estimate_tokens chunkSize text

/-- The cost oracle `split_by_tokens` judges chunks by: the client's token
counter when a client is given, the deterministic estimate otherwise. -/
def costOracle (client : Option (Str → Nat)) : Str → Nat :=
  match client with
  | some f => f
  | none => estimate_tokens

example : split_by_paragraphs "a\n \nb".toList = ["a".toList, "b".toList] := by decide
example : split_by_paragraphs "a\n\n b".toList = ["a".toList, "b".toList] := by decide
example : split_by_paragraphs "a\nb".toList = ["a\nb".toList] := by decide
example : sentencesOf "あ！い".toList = ["あ。".toList, "い。".toList] := by decide
example : split_by_tokens none 1 "あ！い".toList = ["あ。".toList, "い。".toList] := by
  decide
example : split_by_tokens none 800 "a\n\n\nb".toList = ["a\n\nb".toList] := by decide

/-- The speaker-line pattern `^(Speaker \d+|S\d+):\s*(.+)$` of
`TextSplitter.split_script_for_tts`, applied to an already-stripped line:
an alternative prefix, one or more digits, a colon, and at least one
further character (`\s*` backtracks, so `.+` succeeds exactly when the
remainder is non-empty; the line contains no newline).  Digits are modelled
as ASCII digits. -/
def speakerTail (t : Str) : Bool :=
  t.takeWhile Char.isDigit ≠ [] &&
    match t.dropWhile Char.isDigit with
    | ':' :: rest => rest ≠ []
    | _ => false

def matchesSpeaker (l : Str) : Bool :=
  if ("Speaker ".toList).isPrefixOf l then speakerTail (l.drop 8)
  else if l.head? = some 'S' then speakerTail (l.drop 1)
  else false

/-- Loop body of `TextSplitter.split_script_for_tts`: state is
(closed chunks as line lists, current line list, running token sum).
A stripped-empty line is skipped; a speaker line is tested against the
budget before being appended; any other line is appended unconditionally. -/
def ttsStep (budget : Nat) (st : List (List Str) × List Str × Nat) (rawLine : Str) :
    List (List Str) × List Str × Nat :=
  let chunks := st.1
  let cur := st.2.1
  let tokens := st.2.2
  let line := pyStrip rawLine
  if line = [] then st
  else if matchesSpeaker line then
    let lt := estimate_tokens line
    if budget < tokens + lt ∧ cur ≠ [] then (chunks ++ [cur], [line], lt)
    else (chunks, cur ++ [line], tokens + lt)
  else (chunks, cur ++ [line], tokens + estimate_tokens line)

/-- The chunks of `TextSplitter.split_script_for_tts`, as line lists, before
the final `'\n'.join`. -/
def ttsChunks (budget : Nat) (script : Str) : List (List Str) :=
  let r := (splitOnChar '\n' script).foldl (ttsStep budget) ([], [], 0)
  if r.2.1 = [] then r.1 else r.1 ++ [r.2.1]

/-- `TextSplitter.split_script_for_tts(script)`. -/
def split_script_for_tts (budget : Nat) (script : Str) : List Str :=
  (ttsChunks budget script).map (joinSep '\n')

/-- The fixed greeting/introduction markers of `_remove_introduction`. -/
def introWords : List Str :=
  ["こんにちは".toList, "はじめに".toList, "今回は".toList, "welcome".toList,
    "hello".toList]

/-- Python `str.lower()` restricted to ASCII (the markers are ASCII or
Japanese, and Japanese characters are fixed by lowercasing). -/
def lowerStr (s : Str) : Str := s.map Char.toLower

/-- Python substring containment `needle in hay`. -/
def containsSub (hay needle : Str) : Bool :=
  needle.isPrefixOf hay ||
    match hay with
    | [] => false
    | _ :: rest => containsSub rest needle

/-- A line at which `_remove_introduction` stops skipping: non-empty after
stripping and containing no intro marker in its lowercased form. -/
def isCleanLine (l : Str) : Bool :=
  pyStrip l ≠ [] && introWords.all (fun w => !containsSub (lowerStr l) w)

/-- The scan of `_remove_introduction`: `start_index` starts at 0 and is set
to the index of the first clean line; if no line is clean it stays 0. -/
def introStartFrom : Nat → List Str → Nat
  | _, [] => 0
  | i, l :: rest => if isCleanLine l then i else introStartFrom (i + 1) rest

/-- `_remove_introduction(script)` from `build_script.py`. -/
def remove_introduction (script : Str) : Str :=
  let lines := splitOnChar '\n' script
  joinSep '\n' (lines.drop (introStartFrom 0 lines))

/-- `_merge_script_parts(script_parts)` from `build_script.py`: first part
verbatim, later parts intro-stripped and, when non-empty, appended behind a
blank line; the pieces are concatenated with `''.join`. -/
def merge_script_parts (parts : List Str) : Str :=
  match parts with
  | [] => []
  | [p] => p
  | _ =>
    (parts.enum.map (fun pr =>
      if pr.1 = 0 then pr.2
      else
        let cleaned := remove_introduction pr.2
        if cleaned ≠ [] then '\n' :: '\n' :: cleaned else [])).flatten

/-- `config.chunk_size`, the chunker budget (tokens). -/
def config_chunk_size : Nat := 800

/-- The default `limit` of `LLMClient.is_token_limit_exceeded`. -/
def default_token_limit : Nat := 30000

/-- `LLMClient.is_token_limit_exceeded(text, limit)` with the client's token
counter abstracted as `cost`. -/
def is_token_limit_exceeded (cost : Str → Nat) (text : Str) (limit : Nat) : Bool :=
  limit < cost text

/-- The branch `build_script` takes: chunked generation happens exactly when
`llm_client.is_token_limit_exceeded(content)` holds, i.e. against the
client's DEFAULT limit, not against the chunker budget. -/
def build_script_chunked (cost : Str → Nat) (content : Str) : Bool :=
  is_token_limit_exceeded cost content default_token_limit

/-- Number of generation calls `build_script` issues for the script stage:
one per chunk when the chunked branch is taken, otherwise exactly one. -/
def build_script_num_calls (cost : Str → Nat) (content : Str) : Nat :=
  if build_script_chunked cost content then
    (split_by_tokens (some cost) config_chunk_size content).length
  else 1

example : matchesSpeaker "Speaker 1: a".toList = true := by decide
example : matchesSpeaker "Speaker 1:".toList = false := by decide
example : matchesSpeaker "S12: hi".toList = true := by decide
example : matchesSpeaker "Speakerx 1: a".toList = false := by decide
example : split_script_for_tts 8 "Speaker 1: a\nxxxxxxxxxx".toList
    = ["Speaker 1: a\nxxxxxxxxxx".toList] := by decide
example : remove_introduction "こんにちは\nreal line\nmore".toList
    = "real line\nmore".toList := by decide
example : remove_introduction "Hello there\nこんにちは".toList
    = "Hello there\nこんにちは".toList := by decide

/-- The orchestrator's result ledger (`PipelineOrchestrator.results`), keyed
by artifact kind; file paths are abstracted as naturals. -/
structure Ledger where
  script : Option Nat
  explanation : Option Nat
  questions : Option Nat
  flashcards : Option Nat
  audio : Option Nat
deriving DecidableEq

def initLedger : Ledger := ⟨none, none, none, none, none⟩

/-- What a completed `run_full_pipeline` produces: the final ledger, whether
the email step was attempted (it is attempted exactly when `send_mail` is
set, and its own failures are caught inside `send_email_step`), and whether
the final summary was printed. -/
structure RunOutcome where
  ledger : Ledger
  emailAttempted : Bool
  summaryPrinted : Bool
deriving DecidableEq

/-- `PipelineOrchestrator.run_full_pipeline`, with the five stages injected
as functions.  Ingest, script, explainer and questions failures propagate
(the outer handler re-raises); a `build_audio` failure is caught inside
`build_audio_step`, which returns `None` leaving the audio ledger entry
unset, after which the email step and the summary still run. -/
def run_full_pipeline (ingest : Except Nat Nat)
    (script : Nat → Except Nat Nat) (explainer : Nat → Except Nat Nat)
    (questions : Nat → Except Nat (Nat × Option Nat))
    (audio : Nat → Except Nat Nat) (sendMail : Bool) :
    Except Nat RunOutcome :=
  match ingest with
  | .error e => .error e
  | .ok doc =>
    match script doc with
    | .error e => .error e
    | .ok s =>
      match explainer s with
      | .error e => .error e
      | .ok ex =>
        match questions s with
        | .error e => .error e
        | .ok qf =>
          let ledger : Ledger :=
            ⟨some s, some ex, some qf.1, qf.2,
              match audio s with
              | .ok a => some a
              | .error _ => none⟩
          .ok ⟨ledger, sendMail, true⟩

/-- Trace of the retry loop shared by `LLMClient.generate` and
`TTSClient.generate_audio`: how many attempts were made and which backoff
waits (in seconds) happened between consecutive attempts. -/
structure RetryTrace where
  attempts : Nat
  waits : List Nat
deriving DecidableEq

/-- The retry loop `for attempt in range(max_retries)` with the attempt
outcomes injected: a success returns immediately; a failure on any attempt
but the last sleeps `2 ** attempt` and retries; a failure on the last
attempt re-raises that error.  `Except.error none` models the unreachable
final `raise` after the loop (hit only for `max_retries = 0`). -/
def generateGo (outcome : Nat → Except Nat Nat) (maxRetries : Nat) (attempt : Nat)
    (tr : RetryTrace) : Except (Option Nat) Nat × RetryTrace :=
  if attempt < maxRetries then
    match outcome attempt with
    | .ok v => (.ok v, ⟨tr.attempts + 1, tr.waits⟩)
    | .error e =>
      if attempt < maxRetries - 1 then
        generateGo outcome maxRetries (attempt + 1)
          ⟨tr.attempts + 1, tr.waits ++ [2 ^ attempt]⟩
      else (.error (some e), ⟨tr.attempts + 1, tr.waits⟩)
  else (.error none, tr)
termination_by maxRetries - attempt
decreasing_by omega

/-- `LLMClient.generate` / `TTSClient.generate_audio` retry behaviour for a
given `max_retries`. -/
def generate (outcome : Nat → Except Nat Nat) (maxRetries : Nat) :
    Except (Option Nat) Nat × RetryTrace :=
  generateGo outcome maxRetries 0 ⟨0, []⟩

/-- The call with the default `max_retries=3` of both clients. -/
def generate_default (outcome : Nat → Except Nat Nat) :
    Except (Option Nat) Nat × RetryTrace :=
  generate outcome 3

/-- Numeric value of an ASCII digit. -/
def digitVal (c : Char) : Nat := c.toNat - 48

/-- Digit tail of a Python integer literal: digits with single underscores
allowed between digits (`int("2_4")` parses, `int("2__4")`, `int("2_")` do
not). -/
def digitsUValGo (acc : Nat) : Str → Option Nat
  | [] => some acc
  | c :: rest =>
    if c = '_' then
      match rest with
      | [] => none
      | d :: rest2 =>
        if d.isDigit then digitsUValGo (acc * 10 + digitVal d) rest2 else none
    else if c.isDigit then digitsUValGo (acc * 10 + digitVal c) rest
    else none

def parsePosDigits : Str → Option Nat
  | [] => none
  | c :: rest => if c.isDigit then digitsUValGo (digitVal c) rest else none

/-- Python `int(s)` for a decimal string: surrounding whitespace stripped,
optional sign, ASCII digits. -/
def pyIntParse (s : Str) : Option Int :=
  match pyStrip s with
  | [] => none
  | c :: rest =>
    if c = '+' then (parsePosDigits rest).map (fun n => (n : Int))
    else if c = '-' then (parsePosDigits rest).map (fun n => -(n : Int))
    else (parsePosDigits (c :: rest)).map (fun n => (n : Int))

/-- One parameter of `TTSClient._parse_audio_mime_type`: a parameter whose
lowercase form starts with `rate=` sets the rate from the text after the
`=`; otherwise a parameter starting with `audio/L` (case-sensitive) sets
the bit depth from the text after the `L`; an unparsable number leaves the
current value (`except ... pass`). -/
def mimeParamStep (st : Int × Int) (param : Str) : Int × Int :=
  if ("rate=".toList).isPrefixOf (lowerStr param) then
    match pyIntParse (param.drop 5) with
    | some v => (st.1, v)
    | none => st
  else if ("audio/L".toList).isPrefixOf param then
    match pyIntParse (param.drop 7) with
    | some v => (v, st.2)
    | none => st
  else st

/-- `TTSClient._parse_audio_mime_type(mime_type)`: split on `;`, strip each
parameter, process each in order starting from the defaults
(16 bits per sample, rate 24000). -/
def parse_audio_mime_type (mime : Str) : Int × Int :=
  ((splitOnChar ';' mime).map pyStrip).foldl mimeParamStep (16, 24000)

/-- The fields `TTSClient._convert_to_wav` packs into the 44-byte container
header (in source order: ChunkSize, AudioFormat=1 for PCM, NumChannels,
SampleRate, ByteRate, BlockAlign, BitsPerSample, Subchunk2Size). -/
structure WavHeader where
  chunkSize : Int
  audioFormat : Int
  numChannels : Int
  sampleRate : Int
  byteRate : Int
  blockAlign : Int
  bitsPerSample : Int
  dataSize : Nat
deriving DecidableEq

/-- `TTSClient._convert_to_wav(audio_data, mime_type)`, header fields only
(the payload is appended unchanged behind the header). -/
def convert_to_wav_header (dataSize : Nat) (mime : Str) : WavHeader :=
  let p := parse_audio_mime_type mime
  let bitsPerSample := p.1
  let sampleRate := p.2
  let numChannels : Int := 1
  let bytesPerSample := Int.fdiv bitsPerSample 8
  let blockAlign := numChannels * bytesPerSample
  let byteRate := sampleRate * blockAlign
  ⟨(36 : Int) + dataSize, 1, numChannels, sampleRate, byteRate, blockAlign,
    bitsPerSample, dataSize⟩

/-- The numeric value of a non-empty ASCII digit string. -/
def digitsToNat (s : Str) : Nat := s.foldl (fun a c => a * 10 + digitVal c) 0

example : parse_audio_mime_type "audio/L16;rate=24000".toList = (16, 24000) := by
  decide
example : parse_audio_mime_type "audio/pcm".toList = (16, 24000) := by decide
example : parse_audio_mime_type "audio/Lxy;rate=9z9".toList = (16, 24000) := by decide
example : parse_audio_mime_type "audio/L8; Rate=8000".toList = (8, 8000) := by decide
example : (convert_to_wav_header 100 "audio/L16;rate=24000".toList).byteRate
    = 48000 := by decide

/-- The lazy front-matter regex `re.match(r'^---\n(.*?)\n---\n', content,
re.DOTALL)`: after the opening `---\n`, `(.*?)` takes the shortest prefix
followed by `\n---\n`.  `fmFind s` returns the group and the remainder at
the FIRST occurrence of `\n---\n` in `s`. -/
def fmFind : Str → Option (Str × Str)
  | [] => none
  | c :: rest =>
    if ("\n---\n".toList).isPrefixOf (c :: rest) then some ([], (c :: rest).drop 5)
    else
      match fmFind rest with
      | some gr => some (c :: gr.1, gr.2)
      | none => none

/-- The whole front-matter match on a document: `some (group, rest)` when
the pattern matches at the start of `content`. -/
def frontMatterSplit (content : Str) : Option (Str × Str) :=
  if ("---\n".toList).isPrefixOf content then fmFind (content.drop 4)
  else none

/-- Result of `yaml.safe_load` on the front-matter text, abstracted: a
`YAMLError` (`Except.error`), a `None` document (`Except.ok none`, e.g. for
an empty block), or a mapping given as an association list (empty list for
`{}`). -/
abbrev YamlOutcome := Except Unit (Option (List (Nat × Nat)))

/-- Python truthiness of the `metadata` attribute: `None` and the empty
mapping are falsy. -/
def pyTruthy (m : Option (List (Nat × Nat))) : Bool :=
  match m with
  | none => false
  | some [] => false
  | some (_ :: _) => true

/-- The metadata computed by `ingest_markdown`: attempted only when the
document starts with `---\n`; a regex miss leaves it `None`; a parser error
is caught leaving it `None`; otherwise it is whatever the parser returned
(possibly `None` or an empty, falsy mapping). -/
def ingest_metadata (parseYaml : Str → YamlOutcome) (content : Str) :
    Option (List (Nat × Nat)) :=
  if ("---\n".toList).isPrefixOf content then
    match frontMatterSplit content with
    | some gr =>
      match parseYaml gr.1 with
      | .ok m => m
      | .error _ => none
    | none => none
  else none

/-- `IngestedDoc` (title and sections abstracted away; the claim concerns
`raw_md` and `metadata`). -/
structure IngestedDoc where
  raw_md : Str
  metadata : Option (List (Nat × Nat))

/-- `IngestedDoc.get_content_without_metadata`: only a truthy `metadata`
triggers the `re.sub` that removes the front-matter block (followed by
`strip`); otherwise the raw document is returned unchanged. -/
def get_content_without_metadata (d : IngestedDoc) : Str :=
  if pyTruthy d.metadata then
    pyStrip
      (match frontMatterSplit d.raw_md with
        | some gr => gr.2
        | none => d.raw_md)
  else d.raw_md

/-- `ingest_markdown` on decoded file content (existence, extension and
decoding checks concern the file system and are outside the text model):
empty content fails, otherwise the document is built with the metadata of
`ingest_metadata`. -/
def ingest_markdown (parseYaml : Str → YamlOutcome) (content : Str) :
    Except Unit IngestedDoc :=
  if pyStrip content = [] then .error ()
  else .ok ⟨content, ingest_metadata parseYaml content⟩

example : frontMatterSplit "---\nt: 1\n---\nbody".toList
    = some ("t: 1".toList, "body".toList) := by decide
example : frontMatterSplit "---\n\n---\nx".toList = some ([], "x".toList) := by decide
example : frontMatterSplit "--x\na\n---\n".toList = none := by decide

/-! ### Properties of stripping -/

theorem dropWhile_head?_not {p : Char → Bool} {l : Str} {c : Char}
    (h : (l.dropWhile p).head? = some c) : p c = false := by
  induction l with
  | nil => simp [List.dropWhile] at h
  | cons a t ih =>
    rw [List.dropWhile_cons] at h
    by_cases hpa : p a = true
    · rw [if_pos hpa] at h
      exact ih h
    · rw [if_neg hpa] at h
      simp at h
      rw [← h]
      simpa using hpa

/-- A non-empty string whose first and last characters are not whitespace;
such strings are fixed by `pyStrip`. -/
def strippedNE (x : Str) : Prop :=
  x ≠ [] ∧ (∀ c, x.head? = some c → isSpace c = false) ∧
    (∀ c, x.reverse.head? = some c → isSpace c = false)

theorem pyStrip_of_strippedNE {x : Str} (h : strippedNE x) : pyStrip x = x := by
  obtain ⟨hne, hh, hl⟩ := h
  unfold pyStrip
  have h1 : x.dropWhile (fun c => isSpace c) = x := by
    cases x with
    | nil => rfl
    | cons a t =>
      rw [List.dropWhile_cons, if_neg]
      simp [hh a (by simp)]
  rw [h1]
  have h2 : x.reverse.dropWhile (fun c => isSpace c) = x.reverse := by
    cases hx : x.reverse with
    | nil => simp
    | cons a t =>
      rw [List.dropWhile_cons, if_neg]
      simp [hl a (by rw [hx]; simp)]
  rw [h2, List.reverse_reverse]

theorem pyStrip_strippedNE {x : Str} (h : pyStrip x ≠ []) : strippedNE (pyStrip x) := by
  refine ⟨h, ?_, ?_⟩
  · intro c hc
    unfold pyStrip at hc
    set D := x.dropWhile (fun c => isSpace c) with hD
    set R := D.reverse.dropWhile (fun c => isSpace c) with hR
    have hsuff : R <:+ D.reverse := List.dropWhile_suffix _
    have hpref : R.reverse <+: D := by
      have := List.reverse_prefix.mpr hsuff
      rwa [List.reverse_reverse] at this
    obtain ⟨u, hu⟩ := hpref
    cases hRr : R.reverse with
    | nil => rw [hRr] at hc; simp at hc
    | cons a t =>
      rw [hRr] at hc
      simp at hc
      have : D.head? = some a := by rw [← hu, hRr]; simp
      rw [hc] at this
      exact dropWhile_head?_not (hD ▸ this)
  · intro c hc
    unfold pyStrip at hc
    rw [List.reverse_reverse] at hc
    exact dropWhile_head?_not hc

theorem strippedNE_append_mid {a b : Str} (m : Str) (ha : strippedNE a)
    (hb : strippedNE b) : strippedNE (a ++ m ++ b) := by
  obtain ⟨hane, hah, _⟩ := ha
  obtain ⟨hbne, _, hbl⟩ := hb
  refine ⟨?_, ?_, ?_⟩
  · intro h
    rw [List.append_eq_nil] at h
    exact hbne h.2
  · intro c hc
    cases hA : a with
    | nil => exact absurd hA hane
    | cons x t =>
      apply hah c
      rw [hA] at hc ⊢
      simpa using hc
  · intro c hc
    rw [List.reverse_append, List.reverse_append] at hc
    cases hB : b.reverse with
    | nil =>
      rw [List.reverse_eq_nil_iff] at hB
      exact absurd hB hbne
    | cons y t =>
      apply hbl c
      rw [hB] at hc ⊢
      simpa using hc

theorem mem_split_by_paragraphs_strippedNE {text p : Str}
    (hp : p ∈ split_by_paragraphs text) : strippedNE p := by
  unfold split_by_paragraphs at hp
  rw [List.mem_filter] at hp
  obtain ⟨hmem, hne⟩ := hp
  rw [List.mem_map] at hmem
  obtain ⟨y, _, hy⟩ := hmem
  rw [← hy]
  apply pyStrip_strippedNE
  rw [hy]
  exact of_decide_eq_true hne

theorem mem_sentencesOf_strippedNE {t s : Str} (hs : s ∈ sentencesOf t) :
    strippedNE s := by
  unfold sentencesOf at hs
  rw [List.mem_map] at hs
  obtain ⟨y, hy, hys⟩ := hs
  rw [List.mem_filter] at hy
  obtain ⟨hymem, hyne⟩ := hy
  rw [List.mem_map] at hymem
  obtain ⟨z, _, hz⟩ := hymem
  have hystr : strippedNE y := by
    rw [← hz]
    apply pyStrip_strippedNE
    rw [hz]
    exact of_decide_eq_true hyne
  have hdot : strippedNE ['。'] := by
    refine ⟨by simp, ?_, ?_⟩ <;> intro c hc <;> simp at hc <;> rw [← hc] <;> decide
  rw [← hys]
  have := strippedNE_append_mid [] hystr hdot
  simpa using this

/-! ### The chunk-budget invariant (C1) -/

/-- Invariant of the sentence-accumulation loop: every closed chunk is
within budget or an oversized single sentence; the running chunk is empty or
a stripped text that is within budget or a single sentence. -/
def SentState (cost : Str → Nat) (budget : Nat) (p : Str) (st : List Str × Str) :
    Prop :=
  (∀ c ∈ st.1, cost c ≤ budget ∨ (c ∈ sentencesOf p ∧ budget < cost c)) ∧
  (st.2 = [] ∨ (strippedNE st.2 ∧ (cost st.2 ≤ budget ∨ st.2 ∈ sentencesOf p)))

theorem sentStep_inv {cost : Str → Nat} {budget : Nat} {p : Str}
    {st : List Str × Str} {s : Str} (hs : s ∈ sentencesOf p)
    (h : SentState cost budget p st) :
    SentState cost budget p (sentStep cost budget st s) := by
  obtain ⟨h1, h2⟩ := h
  simp only [sentStep]
  by_cases hcur : st.2 = []
  · rw [if_pos hcur]
    by_cases hex : budget < cost s
    · rw [if_pos hex, if_neg (by simp [hcur])]
      refine ⟨?_, Or.inl rfl⟩
      intro c hc
      rw [List.mem_append] at hc
      rcases hc with hc | hc
      · exact h1 c hc
      · simp at hc
        rw [hc]
        exact Or.inr ⟨hs, hex⟩
    · rw [if_neg hex]
      refine ⟨h1, Or.inr ⟨mem_sentencesOf_strippedNE hs, Or.inl (Nat.le_of_not_lt hex)⟩⟩
  · rw [if_neg hcur]
    rcases h2 with h2 | ⟨hstr, hor⟩
    · exact absurd h2 hcur
    by_cases hex : budget < cost (st.2 ++ s)
    · rw [if_pos hex, if_pos hcur]
      refine ⟨?_, Or.inr ⟨mem_sentencesOf_strippedNE hs, ?_⟩⟩
      · intro c hc
        rw [List.mem_append] at hc
        rcases hc with hc | hc
        · exact h1 c hc
        · simp at hc
          rw [hc, pyStrip_of_strippedNE hstr]
          rcases hor with hle | hmem
          · exact Or.inl hle
          · by_cases hlt : budget < cost st.2
            · exact Or.inr ⟨hmem, hlt⟩
            · exact Or.inl (Nat.le_of_not_lt hlt)
      · exact Or.inr hs
    · rw [if_neg hex]
      refine ⟨h1, Or.inr ⟨?_, Or.inl (Nat.le_of_not_lt hex)⟩⟩
      have := strippedNE_append_mid [] hstr (mem_sentencesOf_strippedNE hs)
      simpa using this

theorem sentFoldl_inv (cost : Str → Nat) (budget : Nat) (p : Str) :
    ∀ ss : List Str, (∀ s ∈ ss, s ∈ sentencesOf p) →
    ∀ st : List Str × Str, SentState cost budget p st →
      SentState cost budget p (ss.foldl (sentStep cost budget) st) := by
  intro ss
  induction ss with
  | nil => intro _ st h; exact h
  | cons s rest ih =>
    intro hss st h
    rw [List.foldl_cons]
    exact ih (fun x hx => hss x (by simp [hx])) _ (sentStep_inv (hss s (by simp)) h)

theorem split_by_sentences_spec {cost : Str → Nat} {budget : Nat} {p : Str}
    (hp : budget < cost p) :
    ∀ c ∈ split_by_sentences cost budget p,
      cost c ≤ budget ∨ ((c ∈ sentencesOf p ∨ c = p) ∧ budget < cost c) := by
  intro c hc
  unfold split_by_sentences at hc
  by_cases hse : sentencesOf p = []
  · rw [if_pos hse] at hc
    simp at hc
    rw [hc]
    exact Or.inr ⟨Or.inr rfl, hp⟩
  · rw [if_neg hse] at hc
    have hinv := sentFoldl_inv cost budget p (sentencesOf p) (fun s hs => hs) ([], [])
      ⟨by simp, Or.inl rfl⟩
    set r := (sentencesOf p).foldl (sentStep cost budget) ([], []) with hr
    obtain ⟨hinv1, hinv2⟩ := hinv
    by_cases hr2 : r.2 = []
    · rw [if_pos hr2] at hc
      rcases hinv1 c hc with h | ⟨hm, hlt⟩
      · exact Or.inl h
      · exact Or.inr ⟨Or.inl hm, hlt⟩
    · rw [if_neg hr2] at hc
      rw [List.mem_append] at hc
      rcases hc with hc | hc
      · rcases hinv1 c hc with h | ⟨hm, hlt⟩
        · exact Or.inl h
        · exact Or.inr ⟨Or.inl hm, hlt⟩
      · simp at hc
        rcases hinv2 with h2 | ⟨hstr, hor⟩
        · exact absurd h2 hr2
        rw [hc, pyStrip_of_strippedNE hstr]
        rcases hor with hle | hmem
        · exact Or.inl hle
        · by_cases hlt : budget < cost r.2
          · exact Or.inr ⟨Or.inl hmem, hlt⟩
          · exact Or.inl (Nat.le_of_not_lt hlt)

/-- A chunk that is an atomic unit of `text`: a single paragraph, or a
single sentence of one of the paragraphs. -/
def atomicOf (text c : Str) : Prop :=
  c ∈ split_by_paragraphs text ∨ ∃ p ∈ split_by_paragraphs text, c ∈ sentencesOf p

/-- The budget invariant for one chunk: within budget, or atomic and alone
over budget. -/
def GoodChunk (cost : Str → Nat) (budget : Nat) (text c : Str) : Prop :=
  cost c ≤ budget ∨ (atomicOf text c ∧ budget < cost c)

/-- Invariant of the paragraph-accumulation loop. -/
def ParaState (cost : Str → Nat) (budget : Nat) (text : Str)
    (st : List Str × Str) : Prop :=
  (∀ c ∈ st.1, GoodChunk cost budget text c) ∧
  (st.2 = [] ∨ (strippedNE st.2 ∧
    (cost st.2 ≤ budget ∨ st.2 ∈ split_by_paragraphs text)))

theorem paraStep_inv {cost : Str → Nat} {budget : Nat} {text : Str}
    {st : List Str × Str} {p : Str} (hp : p ∈ split_by_paragraphs text)
    (h : ParaState cost budget text st) :
    ParaState cost budget text (paraStep cost budget st p) := by
  obtain ⟨h1, h2⟩ := h
  have hpstr : strippedNE p := mem_split_by_paragraphs_strippedNE hp
  simp only [paraStep]
  by_cases hcur : st.2 = []
  · rw [if_pos hcur]
    by_cases hex : budget < cost p
    · rw [if_pos hex, if_neg (by simp [hcur])]
      refine ⟨?_, Or.inl rfl⟩
      intro c hc
      rw [List.mem_append] at hc
      rcases hc with hc | hc
      · exact h1 c hc
      · rcases split_by_sentences_spec hex c hc with hle | ⟨hm, hlt⟩
        · exact Or.inl hle
        · rcases hm with hm | hm
          · exact Or.inr ⟨Or.inr ⟨p, hp, hm⟩, hlt⟩
          · exact Or.inr ⟨Or.inl (by rw [hm]; exact hp), hlt⟩
    · rw [if_neg hex]
      exact ⟨h1, Or.inr ⟨hpstr, Or.inl (Nat.le_of_not_lt hex)⟩⟩
  · rw [if_neg hcur]
    rcases h2 with h2 | ⟨hstr, hor⟩
    · exact absurd h2 hcur
    by_cases hex : budget < cost (st.2 ++ '\n' :: '\n' :: p)
    · rw [if_pos hex, if_pos hcur]
      refine ⟨?_, Or.inr ⟨hpstr, Or.inr hp⟩⟩
      intro c hc
      rw [List.mem_append] at hc
      rcases hc with hc | hc
      · exact h1 c hc
      · simp at hc
        rw [hc, pyStrip_of_strippedNE hstr]
        rcases hor with hle | hmem
        · exact Or.inl hle
        · by_cases hlt : budget < cost st.2
          · exact Or.inr ⟨Or.inl hmem, hlt⟩
          · exact Or.inl (Nat.le_of_not_lt hlt)
    · rw [if_neg hex]
      refine ⟨h1, Or.inr ⟨?_, Or.inl (Nat.le_of_not_lt hex)⟩⟩
      have := strippedNE_append_mid ['\n', '\n'] hstr hpstr
      simpa [List.append_assoc] using this

theorem paraFoldl_inv (cost : Str → Nat) (budget : Nat) (text : Str) :
    ∀ ps : List Str, (∀ p ∈ ps, p ∈ split_by_paragraphs text) →
    ∀ st : List Str × Str, ParaState cost budget text st →
      ParaState cost budget text (ps.foldl (paraStep cost budget) st) := by
  intro ps
  induction ps with
  | nil => intro _ st h; exact h
  | cons p rest ih =>
    intro hps st h
    rw [List.foldl_cons]
    exact ih (fun x hx => hps x (by simp [hx])) _ (paraStep_inv (hps p (by simp)) h)

theorem tokenChunks_spec (cost : Str → Nat) (budget : Nat) (text : Str) :
    ∀ c ∈ tokenChunks cost budget text, GoodChunk cost budget text c := by
  intro c hc
  unfold tokenChunks at hc
  have hinv := paraFoldl_inv cost budget text (split_by_paragraphs text)
    (fun p hp => hp) ([], []) ⟨by simp, Or.inl rfl⟩
  set r := (split_by_paragraphs text).foldl (paraStep cost budget) ([], []) with hr
  obtain ⟨hinv1, hinv2⟩ := hinv
  by_cases hr2 : r.2 = []
  · rw [if_pos hr2] at hc
    exact hinv1 c hc
  · rw [if_neg hr2] at hc
    rw [List.mem_append] at hc
    rcases hc with hc | hc
    · exact hinv1 c hc
    · simp at hc
      rcases hinv2 with h2 | ⟨hstr, hor⟩
      · exact absurd h2 hr2
      rw [hc, pyStrip_of_strippedNE hstr]
      rcases hor with hle | hmem
      · exact Or.inl hle
      · by_cases hlt : budget < cost r.2
        · exact Or.inr ⟨Or.inl hmem, hlt⟩
        · exact Or.inl (Nat.le_of_not_lt hlt)

/-- C1: for every input text, budget and cost oracle, every chunk returned
by `split_by_tokens` costs at most the budget, unless it is an atomic unit
(a single paragraph, or a single sentence of a paragraph) whose cost alone
exceeds the budget; in particular a chunk spanning several sentences or
paragraphs never exceeds the budget. -/
theorem C1_chunk_budget_invariant (client : Option (Str → Nat)) (budget : Nat)
    (text : Str) (c : Str) (hc : c ∈ split_by_tokens client budget text) :
    costOracle client c ≤ budget ∨
      (atomicOf text c ∧ budget < costOracle client c) := by
  cases client with
  | some f =>
    simp only [split_by_tokens] at hc
    simp only [costOracle]
    by_cases hex : budget < f text
    · rw [if_neg (not_not_intro hex)] at hc
      exact tokenChunks_spec f budget text c hc
    · rw [if_pos hex] at hc
      simp at hc
      rw [hc]
      exact Or.inl (Nat.le_of_not_lt hex)
  | none =>
    simp only [split_by_tokens] at hc
    simp only [costOracle]
    exact tokenChunks_spec estimate_tokens budget text c hc

/-- Witness: on a two-paragraph text with one oversized paragraph under the
estimate oracle, the middle chunk of the result satisfies the C1
disjunction. -/
theorem C1_chunk_budget_invariant_witness :
    costOracle none "あ。".toList ≤ 1 ∨
      (atomicOf "あ！い\n\nこ".toList "あ。".toList ∧
        1 < costOracle none "あ。".toList) :=
  C1_chunk_budget_invariant none 1 "あ！い\n\nこ".toList "あ。".toList (by decide)

/-! ### Reassembly of content (C2) -/

theorem isSpace_nl : isSpace '\n' = true := by decide

theorem filterNS_append (a b : Str) : filterNS (a ++ b) = filterNS a ++ filterNS b :=
  List.filter_append ..

theorem filterNS_cons_space {c : Char} (h : isSpace c = true) (l : Str) :
    filterNS (c :: l) = filterNS l := by
  simp [filterNS, List.filter_cons, h]

theorem filterNS_all_space {l : Str} (h : ∀ c ∈ l, isSpace c = true) :
    filterNS l = [] := by
  induction l with
  | nil => rfl
  | cons c t ih =>
    rw [filterNS_cons_space (h c (by simp))]
    exact ih (fun d hd => h d (by simp [hd]))

theorem filterNS_reverse (l : Str) : filterNS l.reverse = (filterNS l).reverse := by
  simp [filterNS, List.filter_reverse]

theorem filterNS_dropWhile_space (l : Str) :
    filterNS (l.dropWhile (fun c => isSpace c)) = filterNS l := by
  conv_rhs => rw [← List.takeWhile_append_dropWhile (p := fun c => isSpace c) (l := l)]
  rw [filterNS_append, filterNS_all_space (fun c hc => List.mem_takeWhile_imp hc),
    List.nil_append]

theorem filterNS_pyStrip (x : Str) : filterNS (pyStrip x) = filterNS x := by
  unfold pyStrip
  rw [filterNS_reverse, filterNS_dropWhile_space, filterNS_reverse,
    List.reverse_reverse, filterNS_dropWhile_space]

theorem lastNLIdx_lt : ∀ {l : Str} {k : Nat}, lastNLIdx l = some k → k < l.length := by
  intro l
  induction l with
  | nil => intro k h; simp [lastNLIdx] at h
  | cons c rest ih =>
    intro k h
    simp only [lastNLIdx] at h
    cases hr : lastNLIdx rest with
    | some j =>
      rw [hr] at h
      simp at h
      rw [← h]
      exact Nat.succ_lt_succ (ih hr)
    | none =>
      rw [hr] at h
      by_cases hc : c = '\n'
      · rw [if_pos hc] at h
        simp at h
        rw [← h]
        simp
      · rw [if_neg hc] at h
        simp at h

theorem take_of_prefix {u v : Str} (h : u <+: v) {n : Nat} (hn : n ≤ u.length) :
    v.take n = u.take n := by
  obtain ⟨t, ht⟩ := h
  rw [← ht, List.take_append_eq_append_take, Nat.sub_eq_zero_of_le hn, List.take_zero,
    List.append_nil]

theorem splitParasGo_content : ∀ (fuel : Nat) (cur s : Str), s.length ≤ fuel →
    filterNS (splitParasGo fuel cur s).flatten = filterNS (cur.reverse ++ s) := by
  intro fuel
  induction fuel with
  | zero =>
    intro cur s hs
    have hnil : s = [] := List.eq_nil_of_length_eq_zero (Nat.le_zero.mp hs)
    subst hnil
    simp [splitParasGo]
  | succ fuel ih =>
    intro cur s hs
    cases s with
    | nil => simp [splitParasGo]
    | cons c rest =>
      simp only [splitParasGo]
      by_cases hcn : c = '\n'
      · subst hcn
        rw [if_pos rfl]
        cases hnl : lastNLIdx (rest.takeWhile (fun d => isSpace d)) with
        | some k =>
          have hlen : (rest.drop (k + 1)).length ≤ fuel := by
            have h1 : rest.length ≤ fuel := by
              simpa using Nat.le_of_succ_le_succ hs
            calc (rest.drop (k + 1)).length ≤ rest.length := by
                  simp [List.length_drop]
              _ ≤ fuel := h1
          have hrec := ih [] (rest.drop (k + 1)) hlen
          simp only [List.flatten_cons]
          rw [filterNS_append, hrec]
          have hdropped : filterNS rest = filterNS (rest.drop (k + 1)) := by
            conv_lhs => rw [← List.take_append_drop (k + 1) rest]
            rw [filterNS_append]
            have hklt : k < (rest.takeWhile (fun d => isSpace d)).length :=
              lastNLIdx_lt hnl
            have htake : rest.take (k + 1)
                = (rest.takeWhile (fun d => isSpace d)).take (k + 1) :=
              take_of_prefix (List.takeWhile_prefix _) hklt
            rw [htake, filterNS_all_space, List.nil_append]
            intro d hd
            exact List.mem_takeWhile_imp (List.take_subset _ _ hd)
          rw [filterNS_append (List.reverse cur) ('\n' :: rest),
            @filterNS_cons_space '\n' isSpace_nl rest, hdropped]
          simp
        | none =>
          have hrec := ih ('\n' :: cur) rest (by simpa using Nat.le_of_succ_le_succ hs)
          rw [hrec, List.reverse_cons,
            filterNS_append (List.reverse cur ++ ['\n']) rest,
            filterNS_append (List.reverse cur) ['\n'],
            filterNS_append (List.reverse cur) ('\n' :: rest),
            @filterNS_cons_space '\n' isSpace_nl rest]
          have h0 : filterNS ['\n'] = [] := by decide
          rw [h0]
          simp
      · rw [if_neg hcn]
        have hrec := ih (c :: cur) rest (by simpa using Nat.le_of_succ_le_succ hs)
        rw [hrec, List.reverse_cons]
        simp [filterNS_append, List.append_assoc, filterNS]

theorem flatten_filter_ne_nil (L : List Str) :
    (L.filter (fun p => p ≠ [])).flatten = L.flatten := by
  induction L with
  | nil => rfl
  | cons x t ih =>
    rw [List.filter_cons]
    split
    · simp only [List.flatten_cons]
      rw [ih]
    · next h =>
      have hx : x = [] := by simpa using h
      subst hx
      simp only [List.flatten_cons, List.nil_append]
      exact ih

theorem filterNS_flatten_map_pyStrip (L : List Str) :
    filterNS (L.map pyStrip).flatten = filterNS L.flatten := by
  induction L with
  | nil => rfl
  | cons x t ih =>
    simp only [List.map_cons, List.flatten_cons]
    rw [filterNS_append, filterNS_append, filterNS_pyStrip, ih]

theorem split_by_paragraphs_content (text : Str) :
    filterNS (split_by_paragraphs text).flatten = filterNS text := by
  unfold split_by_paragraphs
  rw [flatten_filter_ne_nil, filterNS_flatten_map_pyStrip]
  have := splitParasGo_content text.length [] text (Nat.le_refl _)
  simpa [splitParas] using this

theorem filterNS_nl2 (p : Str) : filterNS ('\n' :: '\n' :: p) = filterNS p := by
  rw [@filterNS_cons_space '\n' isSpace_nl, @filterNS_cons_space '\n' isSpace_nl]

theorem paraFoldl_content (cost : Str → Nat) (budget : Nat) :
    ∀ ps : List Str, (∀ p ∈ ps, cost p ≤ budget) →
    ∀ (chunks : List Str) (cur : Str),
      filterNS ((ps.foldl (paraStep cost budget) (chunks, cur)).1.flatten ++
          (ps.foldl (paraStep cost budget) (chunks, cur)).2)
        = filterNS (chunks.flatten ++ (cur ++ ps.flatten)) := by
  intro ps
  induction ps with
  | nil => intro _ chunks cur; simp
  | cons p rest ih =>
    intro hps chunks cur
    rw [List.foldl_cons]
    have hple : cost p ≤ budget := hps p (by simp)
    have hrest : ∀ q ∈ rest, cost q ≤ budget := fun q hq => hps q (by simp [hq])
    by_cases hcur : cur = []
    · subst hcur
      have hstep : paraStep cost budget (chunks, []) p = (chunks, p) := by
        simp [paraStep, Nat.not_lt.mpr hple]
      rw [hstep, ih hrest chunks p]
      simp only [List.flatten_cons]
      rw [filterNS_append, filterNS_append, filterNS_append]
      simp [filterNS, List.append_assoc]
    · by_cases hex : budget < cost (cur ++ '\n' :: '\n' :: p)
      · have hstep : paraStep cost budget (chunks, cur) p
            = (chunks ++ [pyStrip cur], p) := by
          simp [paraStep, hcur, hex]
        rw [hstep, ih hrest _ p]
        simp only [List.flatten_append, List.flatten_cons, List.flatten_nil,
          List.append_nil]
        rw [filterNS_append, filterNS_append, filterNS_append chunks.flatten,
          filterNS_pyStrip, filterNS_append cur (p ++ rest.flatten)]
        simp [List.append_assoc]
      · have hstep : paraStep cost budget (chunks, cur) p
            = (chunks, cur ++ '\n' :: '\n' :: p) := by
          simp [paraStep, hcur, hex]
        rw [hstep, ih hrest chunks _]
        simp only [List.flatten_cons]
        rw [filterNS_append chunks.flatten, filterNS_append chunks.flatten,
          filterNS_append (cur ++ '\n' :: '\n' :: p) rest.flatten,
          filterNS_append cur ('\n' :: '\n' :: p), filterNS_nl2,
          filterNS_append cur (p ++ rest.flatten), filterNS_append p rest.flatten]
        simp [List.append_assoc]

/-- C2 (amended): whenever no paragraph of the input exceeds the budget by
itself (so the sentence-level fallback, which rewrites `！`/`？` into `。`,
is never taken), concatenating the chunks of `split_by_tokens` preserves
the input's content exactly: the non-whitespace characters, in order, are
the same — only the whitespace separators differ. -/
theorem C2_reassembly_amended (client : Option (Str → Nat)) (budget : Nat)
    (text : Str)
    (h : ∀ p ∈ split_by_paragraphs text, costOracle client p ≤ budget) :
    filterNS (split_by_tokens client budget text).flatten = filterNS text := by
  have key : ∀ cost : Str → Nat, (∀ p ∈ split_by_paragraphs text, cost p ≤ budget) →
      filterNS (tokenChunks cost budget text).flatten = filterNS text := by
    intro cost hcost
    unfold tokenChunks
    have hfold := paraFoldl_content cost budget (split_by_paragraphs text) hcost [] []
    set r := (split_by_paragraphs text).foldl (paraStep cost budget) ([], []) with hr
    have hfold' : filterNS (r.1.flatten ++ r.2)
        = filterNS (split_by_paragraphs text).flatten := by
      simpa using hfold
    by_cases hr2 : r.2 = []
    · rw [if_pos hr2]
      rw [hr2] at hfold'
      simp only [List.append_nil] at hfold'
      rw [hfold']
      exact split_by_paragraphs_content text
    · rw [if_neg hr2]
      calc filterNS (r.1 ++ [pyStrip r.2]).flatten
          = filterNS (r.1.flatten ++ pyStrip r.2) := by
            simp [List.flatten_append]
        _ = filterNS r.1.flatten ++ filterNS (pyStrip r.2) := filterNS_append ..
        _ = filterNS r.1.flatten ++ filterNS r.2 := by rw [filterNS_pyStrip]
        _ = filterNS (r.1.flatten ++ r.2) := (filterNS_append ..).symm
        _ = filterNS (split_by_paragraphs text).flatten := hfold'
        _ = filterNS text := split_by_paragraphs_content text
  cases client with
  | some f =>
    simp only [split_by_tokens]
    by_cases hex : budget < f text
    · rw [if_neg (not_not_intro hex)]
      exact key f (by simpa [costOracle] using h)
    · rw [if_pos hex]
      simp
  | none =>
    simp only [split_by_tokens]
    exact key estimate_tokens (by simpa [costOracle] using h)

/-- Witness for the amended C2 at a concrete input: a two-paragraph text
whose paragraphs fit the budget is reassembled with its content intact. -/
theorem C2_reassembly_amended_witness :
    filterNS (split_by_tokens none 800 "a\n\n\nb".toList).flatten
      = filterNS "a\n\n\nb".toList :=
  C2_reassembly_amended none 800 "a\n\n\nb".toList (by decide)

/-- Counterexample to C2 as stated: when the sentence-level fallback runs,
the characters `！`/`？` are dropped (replaced by `。`), so concatenating
all chunks does NOT reconstruct the original content — here the character
`！` of the input appears in no chunk at all. -/
theorem C2_reassembly_counterexample :
    '！' ∈ "あ！い".toList ∧
      (∀ ck ∈ split_by_tokens none 1 "あ！い".toList, '！' ∉ ck) ∧
      filterNS (split_by_tokens none 1 "あ！い".toList).flatten
        ≠ filterNS "あ！い".toList := by
  decide

/-! ### No-split short-circuit (C4) -/

/-- C4 (amended): the `cost(text) ≤ budget → return [text]` short-circuit
exists only when an `llm_client` is passed; with a client whose counter
reports the text within the budget, `split_by_tokens` returns exactly
`[text]`. -/
theorem C4_no_split_amended (f : Str → Nat) (budget : Nat) (text : Str)
    (h : f text ≤ budget) : split_by_tokens (some f) budget text = [text] := by
  simp only [split_by_tokens]
  rw [if_pos (Nat.not_lt.mpr h)]

theorem C4_no_split_amended_witness :
    split_by_tokens (some estimate_tokens) 800 "ab".toList = ["ab".toList] :=
  C4_no_split_amended estimate_tokens 800 "ab".toList (by decide)

/-- Counterexample to C4 as stated: without a client the early return is
skipped even though the estimate oracle reports the text within budget, and
the paragraph re-join normalises the blank-line separator, so the result is
not `[text]`. -/
theorem C4_no_split_counterexample :
    costOracle none "a\n\n\nb".toList ≤ 800 ∧
      split_by_tokens none 800 "a\n\n\nb".toList ≠ ["a\n\n\nb".toList] := by
  decide

/-! ### The chunked-generation gate of the script stage (C6) -/

/-- C6 (amended): `build_script` enters chunked generation exactly when the
content exceeds the client's DEFAULT token limit (30000), not the chunker
budget (`config.chunk_size = 800`); any content within that default limit
gets exactly one generation call. -/
theorem C6_chunk_gate_amended (cost : Str → Nat) (content : Str) :
    (build_script_chunked cost content = true ↔
      default_token_limit < cost content) ∧
    (cost content ≤ default_token_limit → build_script_num_calls cost content = 1) := by
  constructor
  · simp [build_script_chunked, is_token_limit_exceeded]
  · intro h
    simp [build_script_num_calls, build_script_chunked, is_token_limit_exceeded,
      Nat.not_lt.mpr h]

theorem C6_chunk_gate_amended_witness :
    build_script_num_calls estimate_tokens (List.replicate 2000 'a') = 1 :=
  (C6_chunk_gate_amended estimate_tokens (List.replicate 2000 'a')).2
    (by show pyFloor07 (List.replicate 2000 'a').length ≤ default_token_limit
        rw [List.length_replicate]
        decide)

/-- Counterexample to C6 as stated: a content of 2000 characters costs 1400
tokens under the estimate oracle — above the chunker budget 800 — yet
`build_script` does not chunk (1400 ≤ 30000) and issues a single call. -/
theorem C6_chunk_gate_counterexample :
    config_chunk_size < estimate_tokens (List.replicate 2000 'a') ∧
      build_script_chunked estimate_tokens (List.replicate 2000 'a') = false ∧
      build_script_num_calls estimate_tokens (List.replicate 2000 'a') = 1 := by
  refine ⟨?_, ?_, ?_⟩
  · show config_chunk_size < pyFloor07 (List.replicate 2000 'a').length
    rw [List.length_replicate]
    decide
  · show (decide (default_token_limit
      < pyFloor07 (List.replicate 2000 'a').length)) = false
    rw [List.length_replicate]
    decide
  · show (if build_script_chunked estimate_tokens (List.replicate 2000 'a')
        = true then _ else 1) = 1
    rw [if_neg ?_]
    show ¬(decide (default_token_limit
      < pyFloor07 (List.replicate 2000 'a').length)) = true
    rw [List.length_replicate]
    decide

/-! ### The TTS script splitter (C3) -/

/-- Budget discipline for one TTS chunk (as a line list): the accumulated
per-line token estimates fit the budget, or the chunk is one single
oversized line. -/
def GoodTTS (budget : Nat) (c : List Str) : Prop :=
  (c.map estimate_tokens).sum ≤ budget ∨
    ∃ l, c = [l] ∧ budget < estimate_tokens l

/-- Invariant of the TTS accumulation loop, for scripts whose every
non-blank line is a speaker line: closed chunks are `GoodTTS`, and the
running chunk is `GoodTTS` with the token counter equal to the sum of its
line estimates. -/
def TTSState (budget : Nat) (st : List (List Str) × List Str × Nat) : Prop :=
  (∀ c ∈ st.1, GoodTTS budget c) ∧
    st.2.2 = (st.2.1.map estimate_tokens).sum ∧ GoodTTS budget st.2.1

theorem ttsStep_inv {budget : Nat} {st : List (List Str) × List Str × Nat}
    {rawLine : Str}
    (hline : pyStrip rawLine = [] ∨ matchesSpeaker (pyStrip rawLine) = true)
    (h : TTSState budget st) : TTSState budget (ttsStep budget st rawLine) := by
  obtain ⟨h1, h2, h3⟩ := h
  simp only [ttsStep]
  by_cases hempty : pyStrip rawLine = []
  · rw [if_pos hempty]
    exact ⟨h1, h2, h3⟩
  · rw [if_neg hempty]
    rcases hline with hline | hline
    · exact absurd hline hempty
    rw [if_pos hline]
    by_cases hflush : budget < st.2.2 + estimate_tokens (pyStrip rawLine) ∧
        st.2.1 ≠ []
    · rw [if_pos hflush]
      refine ⟨?_, by simp, ?_⟩
      · intro c hc
        rw [List.mem_append] at hc
        rcases hc with hc | hc
        · exact h1 c hc
        · simp at hc
          rw [hc]
          exact h3
      · by_cases hover : budget < estimate_tokens (pyStrip rawLine)
        · exact Or.inr ⟨pyStrip rawLine, rfl, hover⟩
        · exact Or.inl (by simpa using Nat.le_of_not_lt hover)
    · rw [if_neg hflush]
      refine ⟨h1, by simp [h2], ?_⟩
      rcases Decidable.not_and_iff_or_not.mp hflush with hle | hnil
      · exact Or.inl (by
          simp only [List.map_append, List.sum_append, List.map_cons,
            List.map_nil, List.sum_cons, List.sum_nil]
          rw [← h2]
          simpa using Nat.le_of_not_lt hle)
      · have : st.2.1 = [] := Decidable.not_not.mp hnil
        rw [this]
        by_cases hover : budget < estimate_tokens (pyStrip rawLine)
        · exact Or.inr ⟨pyStrip rawLine, rfl, hover⟩
        · exact Or.inl (by simpa using Nat.le_of_not_lt hover)

theorem ttsFoldl_inv (budget : Nat) :
    ∀ lines : List Str,
    (∀ l ∈ lines, pyStrip l = [] ∨ matchesSpeaker (pyStrip l) = true) →
    ∀ st, TTSState budget st →
      TTSState budget (lines.foldl (ttsStep budget) st) := by
  intro lines
  induction lines with
  | nil => intro _ st h; exact h
  | cons l rest ih =>
    intro hl st h
    rw [List.foldl_cons]
    exact ih (fun x hx => hl x (by simp [hx])) _ (ttsStep_inv (hl l (by simp)) h)

/-- C3 (amended): for a script whose every non-blank line matches the
speaker pattern, every chunk of `split_script_for_tts` is the newline-join
of a line list whose accumulated cost fits the budget, unless it is a
single oversized line alone in its chunk.  (For other scripts the claim
fails: non-speaker lines are appended with no budget test at all — see the
counterexample.) -/
theorem C3_tts_budget_amended (budget : Nat) (script : Str)
    (h : ∀ l ∈ splitOnChar '\n' script,
      pyStrip l = [] ∨ matchesSpeaker (pyStrip l) = true) :
    ∀ c ∈ split_script_for_tts budget script,
      ∃ ls, c = joinSep '\n' ls ∧ GoodTTS budget ls := by
  intro c hc
  unfold split_script_for_tts at hc
  rw [List.mem_map] at hc
  obtain ⟨ls, hls, hjoin⟩ := hc
  refine ⟨ls, hjoin.symm, ?_⟩
  unfold ttsChunks at hls
  have hinv := ttsFoldl_inv budget (splitOnChar '\n' script) h ([], [], 0)
    ⟨by simp, by simp, Or.inl (by simp)⟩
  set r := (splitOnChar '\n' script).foldl (ttsStep budget) ([], [], 0) with hr
  obtain ⟨hinv1, _, hinv3⟩ := hinv
  by_cases hr2 : r.2.1 = []
  · rw [if_pos hr2] at hls
    exact hinv1 ls hls
  · rw [if_neg hr2] at hls
    rw [List.mem_append] at hls
    rcases hls with hls | hls
    · exact hinv1 ls hls
    · simp at hls
      rw [hls]
      exact hinv3

/-- Witness for the amended C3: a two-speaker-line script within budget. -/
theorem C3_tts_budget_amended_witness :
    ∃ ls, "S1: a\nS2: b".toList = joinSep '\n' ls ∧ GoodTTS 800 ls :=
  C3_tts_budget_amended 800 "S1: a\nS2: b".toList (by decide)
    "S1: a\nS2: b".toList (by decide)

/-- Counterexample to C3 as stated: a non-speaker line is appended with no
budget test, producing a two-line chunk whose cost (8 + 7 = 15, and 16 for
the joined text) exceeds the budget 8, so an over-budget chunk need not be
a single oversized line. -/
theorem C3_tts_budget_counterexample :
    split_script_for_tts 8 "Speaker 1: a\nxxxxxxxxxx".toList
        = ["Speaker 1: a\nxxxxxxxxxx".toList] ∧
      (splitOnChar '\n' "Speaker 1: a\nxxxxxxxxxx".toList).length = 2 ∧
      8 < ((splitOnChar '\n' "Speaker 1: a\nxxxxxxxxxx".toList).map
            estimate_tokens).sum ∧
      8 < estimate_tokens "Speaker 1: a\nxxxxxxxxxx".toList := by
  refine ⟨by decide, by decide, by decide, by decide⟩

/-! ### Introduction stripping in the script merger (C5) -/

theorem splitOnPred_ne_nil (p : Char → Bool) (s : Str) : splitOnPred p s ≠ [] := by
  cases s with
  | nil => simp [splitOnPred]
  | cons c rest =>
    simp only [splitOnPred]
    by_cases hp : p c = true
    · rw [if_pos hp]
      simp
    · rw [if_neg hp]
      cases hsp : splitOnPred p rest with
      | nil => simp
      | cons h t => simp

theorem joinSep_splitOnChar (sep : Char) (s : Str) :
    joinSep sep (splitOnChar sep s) = s := by
  unfold splitOnChar
  induction s with
  | nil => rfl
  | cons c rest ih =>
    simp only [splitOnPred]
    by_cases hc : c = sep
    · rw [if_pos (by simp [hc])]
      cases hsp : splitOnPred (fun c => c = sep) rest with
      | nil => exact absurd hsp (splitOnPred_ne_nil _ _)
      | cons h t =>
        rw [hsp] at ih
        simp only [joinSep]
        rw [ih, hc]
        simp
    · rw [if_neg (by simp [hc])]
      cases hsp : splitOnPred (fun c => c = sep) rest with
      | nil => exact absurd hsp (splitOnPred_ne_nil _ _)
      | cons h t =>
        rw [hsp] at ih
        have hred : (match h :: t with
          | h :: t => (c :: h) :: t
          | [] => [[c]]) = (c :: h) :: t := rfl
        rw [hred]
        cases t with
        | nil =>
          simp only [joinSep] at ih ⊢
          rw [ih]
        | cons t1 t2 =>
          simp only [joinSep] at ih ⊢
          rw [List.cons_append, ih]

theorem introStartFrom_none {ls : List Str}
    (h : ∀ l ∈ ls, isCleanLine l = false) : ∀ i, introStartFrom i ls = 0 := by
  induction ls with
  | nil => intro i; rfl
  | cons l rest ih =>
    intro i
    simp only [introStartFrom]
    rw [if_neg (by simp [h l (by simp)])]
    exact ih (fun x hx => h x (by simp [hx])) (i + 1)

theorem introStartFrom_found :
    ∀ (ls : List Str) (i : Nat),
      (∃ m, m < ls.length ∧ isCleanLine (ls.getD m []) = true) →
      ∃ j, introStartFrom i ls = i + j ∧ j < ls.length ∧
        isCleanLine (ls.getD j []) = true ∧
        ∀ m, m < j → isCleanLine (ls.getD m []) = false := by
  intro ls
  induction ls with
  | nil =>
    intro i hex
    obtain ⟨m, hm, _⟩ := hex
    simp at hm
  | cons l rest ih =>
    intro i hex
    by_cases hl : isCleanLine l = true
    · refine ⟨0, ?_, by simp, by simpa using hl, by omega⟩
      simp [introStartFrom, hl]
    · obtain ⟨m, hm, hclean⟩ := hex
      have hm0 : m ≠ 0 := by
        intro h0
        rw [h0] at hclean
        simp at hclean
        exact absurd hclean hl
      obtain ⟨m', rfl⟩ := Nat.exists_eq_succ_of_ne_zero hm0
      have hex' : ∃ k, k < rest.length ∧ isCleanLine (rest.getD k []) = true :=
        ⟨m', by simpa using hm, by simpa using hclean⟩
      obtain ⟨j, hj1, hj2, hj3, hj4⟩ := ih (i + 1) hex'
      refine ⟨j + 1, ?_, by simpa using Nat.succ_lt_succ hj2, by simpa using hj3, ?_⟩
      · simp only [introStartFrom]
        rw [if_neg (by simp [hl]), hj1]
        omega
      · intro m hmj
        cases m with
        | zero =>
          have : isCleanLine l = false := by simpa using hl
          simpa using this
        | succ k => simpa using hj4 k (by omega)

/-- C5: the stripped form of a fragment starts at the first line that is
non-empty after stripping and contains none of the fixed case-insensitive
intro markers, all earlier lines being discarded (second conjunct); when no
such line exists — every non-empty line carries a marker, or there is no
non-empty line — the whole fragment is kept from line 0 (third conjunct).
`_merge_script_parts` applies exactly this to every non-first fragment. -/
theorem C5_remove_introduction (script : Str) :
    (remove_introduction script
        = joinSep '\n' ((splitOnChar '\n' script).drop
            (introStartFrom 0 (splitOnChar '\n' script)))) ∧
    ((∃ i, i < (splitOnChar '\n' script).length ∧
        isCleanLine ((splitOnChar '\n' script).getD i []) = true) →
      introStartFrom 0 (splitOnChar '\n' script)
          < (splitOnChar '\n' script).length ∧
        isCleanLine ((splitOnChar '\n' script).getD
            (introStartFrom 0 (splitOnChar '\n' script)) []) = true ∧
        ∀ m, m < introStartFrom 0 (splitOnChar '\n' script) →
          isCleanLine ((splitOnChar '\n' script).getD m []) = false) ∧
    ((∀ l ∈ splitOnChar '\n' script, isCleanLine l = false) →
      remove_introduction script = script) := by
  refine ⟨rfl, ?_, ?_⟩
  · intro hex
    obtain ⟨j, hj1, hj2, hj3, hj4⟩ :=
      introStartFrom_found (splitOnChar '\n' script) 0 hex
    rw [hj1]
    simp only [Nat.zero_add]
    exact ⟨hj2, hj3, hj4⟩
  · intro hall
    show joinSep '\n' ((splitOnChar '\n' script).drop
        (introStartFrom 0 (splitOnChar '\n' script))) = script
    rw [introStartFrom_none hall 0, List.drop_zero, joinSep_splitOnChar]

/-- Witness: a fragment in which every line carries an intro marker is
returned whole. -/
theorem C5_remove_introduction_witness :
    remove_introduction "welcome\nこんにちは".toList = "welcome\nこんにちは".toList :=
  (C5_remove_introduction "welcome\nこんにちは".toList).2.2 (by decide)

/-! ### Audio soft-gating in the orchestrator (C7) -/

/-- C7: when ingest, script, explainer and questions succeed but the audio
stage raises, the orchestrator catches the error: the run completes
(`Except.ok`), the audio ledger entry stays unset, the email step is still
attempted exactly when `send_mail` is set, the summary is printed, and
every other ledger entry holds exactly the value its stage produced. -/
theorem C7_audio_soft_failure (doc s ex q e : Nat) (f : Option Nat)
    (script explainer audio : Nat → Except Nat Nat)
    (questions : Nat → Except Nat (Nat × Option Nat)) (sendMail : Bool)
    (hs : script doc = .ok s) (he : explainer s = .ok ex)
    (hq : questions s = .ok (q, f)) (ha : audio s = .error e) :
    run_full_pipeline (.ok doc) script explainer questions audio sendMail
      = .ok ⟨⟨some s, some ex, some q, f, none⟩, sendMail, true⟩ := by
  simp [run_full_pipeline, hs, he, hq, ha]

theorem C7_audio_soft_failure_witness :
    run_full_pipeline (.ok 0) (fun _ => .ok 1) (fun _ => .ok 2)
        (fun _ => .ok (3, some 4)) (fun _ => .error 7) true
      = .ok ⟨⟨some 1, some 2, some 3, some 4, none⟩, true, true⟩ :=
  C7_audio_soft_failure 0 1 2 3 7 (some 4) (fun _ => .ok 1) (fun _ => .ok 2)
    (fun _ => .error 7) (fun _ => .ok (3, some 4)) true rfl rfl rfl rfl

/-! ### Retry loop of the generation clients (C8) -/

theorem generateGo_all_fail (outcome : Nat → Except Nat Nat) (err : Nat → Nat)
    (maxRetries : Nat)
    (hfail : ∀ i, i < maxRetries → outcome i = .error (err i)) :
    ∀ (k attempt : Nat), attempt < maxRetries → maxRetries - attempt = k →
    ∀ tr : RetryTrace,
      generateGo outcome maxRetries attempt tr =
        (.error (some (err (maxRetries - 1))),
          ⟨tr.attempts + (maxRetries - attempt),
            tr.waits ++ (List.range' attempt (maxRetries - 1 - attempt)).map
              (fun a => 2 ^ a)⟩) := by
  intro k
  induction k with
  | zero =>
    intro attempt hlt heq tr
    omega
  | succ k ih =>
    intro attempt hlt heq tr
    unfold generateGo
    rw [if_pos hlt, hfail attempt hlt]
    show (if attempt < maxRetries - 1 then
        generateGo outcome maxRetries (attempt + 1)
          ⟨tr.attempts + 1, tr.waits ++ [2 ^ attempt]⟩
      else (.error (some (err attempt)), ⟨tr.attempts + 1, tr.waits⟩)) = _
    by_cases hlast : attempt < maxRetries - 1
    · rw [if_pos hlast]
      rw [ih (attempt + 1) (by omega) (by omega)]
      have hn : maxRetries - 1 - attempt = (maxRetries - 1 - (attempt + 1)) + 1 := by
        omega
      rw [hn, List.range'_succ]
      simp only [Prod.mk.injEq, RetryTrace.mk.injEq, List.map_cons,
        List.append_assoc, List.cons_append, List.nil_append, true_and, and_true]
      omega
    · rw [if_neg hlast]
      have hatt : attempt = maxRetries - 1 := by omega
      have hrem : maxRetries - attempt = 1 := by omega
      have hzero : maxRetries - 1 - attempt = 0 := by omega
      rw [hrem, hzero, hatt]
      simp

/-- C8: when every attempt of the retry loop fails, exactly `max_retries`
attempts are made (default 3), the waits between consecutive attempts are
`2 ^ attempt` seconds for the 0-based index of the attempt that just
failed, and the error of the last attempt is what reaches the caller. -/
theorem C8_retry_exhaustion (outcome : Nat → Except Nat Nat) (err : Nat → Nat)
    (maxRetries : Nat) (h1 : 1 ≤ maxRetries)
    (hfail : ∀ i, i < maxRetries → outcome i = .error (err i)) :
    generate outcome maxRetries =
      (.error (some (err (maxRetries - 1))),
        ⟨maxRetries, (List.range (maxRetries - 1)).map (fun a => 2 ^ a)⟩) ∧
    generate_default outcome = generate outcome 3 := by
  refine ⟨?_, rfl⟩
  have h := generateGo_all_fail outcome err maxRetries hfail maxRetries 0
    (by omega) (by omega) ⟨0, []⟩
  unfold generate
  rw [h]
  simp [List.range_eq_range']

/-- Witness: three failing attempts yield exactly 3 calls, waits of 1 and 2
seconds, and the third attempt's error. -/
theorem C8_retry_exhaustion_witness :
    generate (fun i => Except.error (100 + i)) 3
      = (Except.error (some 102), ⟨3, [1, 2]⟩) := by
  have h := (C8_retry_exhaustion (fun i => Except.error (100 + i))
    (fun i => 100 + i) 3 (by omega) (fun i _ => rfl)).1
  simpa using h

/-! ### WAV header synthesis (C9) -/

theorem isDigit_val {c : Char} (h : c.isDigit = true) :
    48 ≤ c.toNat ∧ c.toNat ≤ 57 := by
  simp only [Char.isDigit, Bool.and_eq_true, decide_eq_true_eq] at h
  obtain ⟨h1, h2⟩ := h
  rw [ge_iff_le] at h1
  exact ⟨UInt32.le_toNat_of_le (by decide) h1, UInt32.toNat_le_of_le (by decide) h2⟩

theorem isDigit_ne {c : Char} (h : c.isDigit = true) :
    isSpace c = false ∧ c ≠ ';' ∧ c ≠ '_' ∧ c ≠ '+' ∧ c ≠ '-' := by
  obtain ⟨h1, h2⟩ := isDigit_val h
  have hne : ∀ d : Char, d.toNat < 48 ∨ 57 < d.toNat → c ≠ d := by
    intro d hd hcd
    rw [hcd] at h1 h2
    omega
  refine ⟨?_, hne ';' (by decide), hne '_' (by decide), hne '+' (by decide),
    hne '-' (by decide)⟩
  simp only [isSpace, Bool.or_eq_false_iff, decide_eq_false_iff_not]
  exact ⟨⟨⟨⟨⟨⟨⟨hne ' ' (by decide), hne '\t' (by decide)⟩, hne '\n' (by decide)⟩,
    hne '\r' (by decide)⟩, hne '\x0B' (by decide)⟩, hne '\x0C' (by decide)⟩,
    hne ' ' (by decide)⟩, hne '　' (by decide)⟩

theorem pyStrip_no_space {l : Str} (h : ∀ c ∈ l, isSpace c = false) :
    pyStrip l = l := by
  have hdrop : ∀ m : Str, (∀ c ∈ m, isSpace c = false) →
      m.dropWhile (fun c => isSpace c) = m := by
    intro m hm
    cases m with
    | nil => rfl
    | cons a t => rw [List.dropWhile_cons, if_neg (by simp [hm a (by simp)])]
  unfold pyStrip
  rw [hdrop l h, hdrop l.reverse (fun c hc => h c (by simpa using hc)),
    List.reverse_reverse]

theorem digitsUValGo_digits (t : Str) : ∀ acc : Nat, (∀ c ∈ t, c.isDigit = true) →
    digitsUValGo acc t = some (t.foldl (fun a c => a * 10 + digitVal c) acc) := by
  induction t with
  | nil => intro acc _; rfl
  | cons c rest ih =>
    intro acc h
    have hc := h c (by simp)
    rw [digitsUValGo.eq_def]
    simp only
    rw [if_neg (isDigit_ne hc).2.2.1, if_pos hc,
      ih _ (fun d hd => h d (by simp [hd])), List.foldl_cons]

theorem parsePosDigits_digits {t : Str} (hne : t ≠ [])
    (h : ∀ c ∈ t, c.isDigit = true) :
    parsePosDigits t = some (digitsToNat t) := by
  cases t with
  | nil => exact absurd rfl hne
  | cons c rest =>
    simp only [parsePosDigits]
    rw [if_pos (h c (by simp)),
      digitsUValGo_digits rest (digitVal c) (fun d hd => h d (by simp [hd]))]
    unfold digitsToNat
    rw [List.foldl_cons]
    norm_num

theorem pyIntParse_digits {t : Str} (hne : t ≠ [])
    (h : ∀ c ∈ t, c.isDigit = true) :
    pyIntParse t = some (digitsToNat t) := by
  unfold pyIntParse
  rw [pyStrip_no_space (fun c hc => (isDigit_ne (h c hc)).1)]
  cases t with
  | nil => exact absurd rfl hne
  | cons c rest =>
    have hc := h c (by simp)
    show (if c = '+' then _ else if c = '-' then _
      else (parsePosDigits (c :: rest)).map (fun n => (n : Int))) = _
    rw [if_neg (isDigit_ne hc).2.2.2.1, if_neg (isDigit_ne hc).2.2.2.2,
      parsePosDigits_digits (by simp) h]
    rfl

theorem splitOnPred_append_sep {p : Char → Bool} {a : Str}
    (ha : ∀ c ∈ a, p c = false) {sep : Char} (hsep : p sep = true) (b : Str) :
    splitOnPred p (a ++ sep :: b) = a :: splitOnPred p b := by
  induction a with
  | nil =>
    simp only [List.nil_append, splitOnPred]
    rw [if_pos hsep]
  | cons c t ih =>
    simp only [List.cons_append, splitOnPred, List.append_eq]
    rw [if_neg (by simp [ha c (by simp)]), ih (fun d hd => ha d (by simp [hd]))]

theorem splitOnPred_no_sep {p : Char → Bool} {a : Str}
    (ha : ∀ c ∈ a, p c = false) : splitOnPred p a = [a] := by
  induction a with
  | nil => rfl
  | cons c t ih =>
    simp only [splitOnPred]
    rw [if_neg (by simp [ha c (by simp)]), ih (fun d hd => ha d (by simp [hd]))]

theorem isPrefixOf_append (a b : Str) : a.isPrefixOf (a ++ b) = true := by
  induction a with
  | nil => simp
  | cons c t ih => simp [List.isPrefixOf_cons₂, ih]

theorem isPrefixOf_cons_ne {a b : Char} (h : a ≠ b) (l m : Str) :
    (a :: l).isPrefixOf (b :: m) = false := by
  simp [List.isPrefixOf, h]

/-- C9: a MIME type carrying an `audio/L<b>` bit-depth indicator and a
`rate=<r>` parameter (digit strings `sb`, `sr`) yields a mono PCM header
with `bitsPerSample = b`, `sampleRate = r`, `blockAlign = b / 8`,
`byteRate = r * (b / 8)` and `chunkSize = 36 + dataSize`; and when either
parameter is absent or malformed the defaults 16 bits / 24000 Hz stand in
for it. -/
theorem C9_wav_header (dataSize : Nat) (sb sr : Str)
    (hsbne : sb ≠ []) (hsb : ∀ c ∈ sb, c.isDigit = true)
    (hsrne : sr ≠ []) (hsr : ∀ c ∈ sr, c.isDigit = true) :
    parse_audio_mime_type ("audio/L".toList ++ sb ++ ';' :: ("rate=".toList ++ sr))
      = ((digitsToNat sb : Int), (digitsToNat sr : Int)) ∧
    convert_to_wav_header dataSize
        ("audio/L".toList ++ sb ++ ';' :: ("rate=".toList ++ sr))
      = ⟨(36 : Int) + dataSize, 1, 1, (digitsToNat sr : Int),
          (digitsToNat sr : Int) * ((digitsToNat sb / 8 : Nat) : Int),
          ((digitsToNat sb / 8 : Nat) : Int), (digitsToNat sb : Int), dataSize⟩ ∧
    parse_audio_mime_type "audio/pcm".toList = (16, 24000) ∧
    parse_audio_mime_type "audio/Lxy;rate=9z9".toList = (16, 24000) := by
  have hpre1 : ∀ c ∈ ("audio/L".toList ++ sb), decide (c = ';') = false := by
    intro c hc
    rw [List.mem_append] at hc
    rcases hc with hc | hc
    · exact decide_eq_false ((by decide : ∀ c ∈ "audio/L".toList, ¬ c = ';') c hc)
    · exact decide_eq_false (isDigit_ne (hsb c hc)).2.1
  have hpre2 : ∀ c ∈ ("rate=".toList ++ sr), decide (c = ';') = false := by
    intro c hc
    rw [List.mem_append] at hc
    rcases hc with hc | hc
    · exact decide_eq_false ((by decide : ∀ c ∈ "rate=".toList, ¬ c = ';') c hc)
    · exact decide_eq_false (isDigit_ne (hsr c hc)).2.1
  have hns1 : ∀ c ∈ ("audio/L".toList ++ sb), isSpace c = false := by
    intro c hc
    rw [List.mem_append] at hc
    rcases hc with hc | hc
    · exact (by decide : ∀ c ∈ "audio/L".toList, isSpace c = false) c hc
    · exact (isDigit_ne (hsb c hc)).1
  have hns2 : ∀ c ∈ ("rate=".toList ++ sr), isSpace c = false := by
    intro c hc
    rw [List.mem_append] at hc
    rcases hc with hc | hc
    · exact (by decide : ∀ c ∈ "rate=".toList, isSpace c = false) c hc
    · exact (isDigit_ne (hsr c hc)).1
  have hsplit : splitOnChar ';'
        ("audio/L".toList ++ sb ++ ';' :: ("rate=".toList ++ sr))
      = ("audio/L".toList ++ sb) :: [("rate=".toList ++ sr)] := by
    unfold splitOnChar
    rw [splitOnPred_append_sep hpre1 (by decide), splitOnPred_no_sep hpre2]
  have hc1 : ("rate=".toList).isPrefixOf (lowerStr ("audio/L".toList ++ sb))
      = false := by
    show ("rate=".toList).isPrefixOf
      (List.map Char.toLower ("audio/L".toList ++ sb)) = false
    rw [List.map_append,
      (by decide : List.map Char.toLower "audio/L".toList = 'a' :: "udio/l".toList),
      (by rfl : "rate=".toList = 'r' :: "ate=".toList)]
    exact isPrefixOf_cons_ne (by decide) _ _
  have hc2 : ("audio/L".toList).isPrefixOf ("audio/L".toList ++ sb) = true :=
    isPrefixOf_append _ _
  have hdropL : ("audio/L".toList ++ sb).drop 7 = sb := by
    rw [(by rfl : (7 : Nat) = ("audio/L".toList).length), List.drop_left]
  have hc3 : ("rate=".toList).isPrefixOf (lowerStr ("rate=".toList ++ sr))
      = true := by
    show ("rate=".toList).isPrefixOf
      (List.map Char.toLower ("rate=".toList ++ sr)) = true
    rw [List.map_append,
      (by decide : List.map Char.toLower "rate=".toList = "rate=".toList)]
    exact isPrefixOf_append _ _
  have hdropR : ("rate=".toList ++ sr).drop 5 = sr := by
    rw [(by rfl : (5 : Nat) = ("rate=".toList).length), List.drop_left]
  have hstep1 : mimeParamStep (16, 24000) ("audio/L".toList ++ sb)
      = ((digitsToNat sb : Int), 24000) := by
    unfold mimeParamStep
    rw [if_neg (by rw [hc1]; exact Bool.false_ne_true),
      if_pos hc2, hdropL, pyIntParse_digits hsbne hsb]
    rfl
  have hstep2 : mimeParamStep ((digitsToNat sb : Int), 24000)
        ("rate=".toList ++ sr)
      = ((digitsToNat sb : Int), (digitsToNat sr : Int)) := by
    unfold mimeParamStep
    rw [if_pos hc3, hdropR, pyIntParse_digits hsrne hsr]
    rfl
  have hparse : parse_audio_mime_type
        ("audio/L".toList ++ sb ++ ';' :: ("rate=".toList ++ sr))
      = ((digitsToNat sb : Int), (digitsToNat sr : Int)) := by
    unfold parse_audio_mime_type
    rw [hsplit]
    simp only [List.map_cons, List.map_nil]
    rw [pyStrip_no_space hns1, pyStrip_no_space hns2]
    simp only [List.foldl_cons, List.foldl_nil]
    rw [hstep1, hstep2]
  have hdiv : Int.fdiv (digitsToNat sb : Int) 8
      = ((digitsToNat sb / 8 : Nat) : Int) := (Int.ofNat_fdiv _ _).symm
  refine ⟨hparse, ?_, by decide, by decide⟩
  have hconv : convert_to_wav_header dataSize
        ("audio/L".toList ++ sb ++ ';' :: ("rate=".toList ++ sr))
      = ⟨(36 : Int) + dataSize, 1, 1,
          (parse_audio_mime_type
            ("audio/L".toList ++ sb ++ ';' :: ("rate=".toList ++ sr))).2,
          (parse_audio_mime_type
            ("audio/L".toList ++ sb ++ ';' :: ("rate=".toList ++ sr))).2 *
            ((1 : Int) * Int.fdiv (parse_audio_mime_type
              ("audio/L".toList ++ sb ++ ';' :: ("rate=".toList ++ sr))).1 8),
          (1 : Int) * Int.fdiv (parse_audio_mime_type
            ("audio/L".toList ++ sb ++ ';' :: ("rate=".toList ++ sr))).1 8,
          (parse_audio_mime_type
            ("audio/L".toList ++ sb ++ ';' :: ("rate=".toList ++ sr))).1,
          dataSize⟩ := rfl
  rw [hconv, hparse]
  simp [hdiv]

/-- Witness: the MIME type `audio/L16;rate=24000` yields blockAlign 2,
byteRate 48000 and chunkSize 36 + 100. -/
theorem C9_wav_header_witness :
    parse_audio_mime_type "audio/L16;rate=24000".toList = (16, 24000) ∧
      convert_to_wav_header 100 "audio/L16;rate=24000".toList
        = ⟨136, 1, 1, 24000, 48000, 2, 16, 100⟩ := by
  have h := C9_wav_header 100 "16".toList "24000".toList (by decide) (by decide)
    (by decide) (by decide)
  have hmime : "audio/L".toList ++ "16".toList ++ ';'
        :: ("rate=".toList ++ "24000".toList)
      = "audio/L16;rate=24000".toList := by decide
  rw [hmime] at h
  refine ⟨?_, ?_⟩
  · rw [h.1]
    decide
  · rw [h.2.1]
    decide

/-! ### Front-matter handling in ingest (C10) -/

/-- C10: when the document starts with a `---` front-matter block whose
YAML parse raises, yields `None`, or yields an empty (falsy) mapping,
ingestion still succeeds, the metadata is falsy, and
`get_content_without_metadata` returns the raw document unchanged — the
front-matter block included — because the block is stripped only under a
truthy metadata. -/
theorem C10_front_matter (parseYaml : Str → YamlOutcome) (content : Str)
    (hfm : ("---\n".toList).isPrefixOf content = true)
    (hne : pyStrip content ≠ [])
    (hfail : ∀ g r, frontMatterSplit content = some (g, r) →
      parseYaml g = .error () ∨ parseYaml g = .ok none ∨
        parseYaml g = .ok (some [])) :
    ∃ d, ingest_markdown parseYaml content = .ok d ∧
      pyTruthy d.metadata = false ∧ d.raw_md = content ∧
      get_content_without_metadata d = content := by
  have hfalsy : pyTruthy (ingest_metadata parseYaml content) = false := by
    unfold ingest_metadata
    rw [if_pos hfm]
    cases hfm2 : frontMatterSplit content with
    | none => rfl
    | some gr =>
      show pyTruthy (match parseYaml gr.1 with
        | Except.ok m => m
        | Except.error _ => none) = false
      rcases hfail gr.1 gr.2 (by rw [hfm2]) with h | h | h <;> rw [h] <;> rfl
  refine ⟨⟨content, ingest_metadata parseYaml content⟩, ?_, hfalsy, rfl, ?_⟩
  · unfold ingest_markdown
    rw [if_neg hne]
  · unfold get_content_without_metadata
    rw [if_neg (by rw [hfalsy]; exact Bool.false_ne_true)]

/-- Witness: a document whose front-matter block fails to parse is ingested
with falsy metadata and its content keeps the front-matter block. -/
theorem C10_front_matter_witness :
    ∃ d, ingest_markdown (fun _ => .error ()) "---\nt\n---\nbody".toList
        = .ok d ∧
      pyTruthy d.metadata = false ∧ d.raw_md = "---\nt\n---\nbody".toList ∧
      get_content_without_metadata d = "---\nt\n---\nbody".toList :=
  C10_front_matter (fun _ => .error ()) "---\nt\n---\nbody".toList (by decide)
    (by decide) (fun g r _ => Or.inl rfl)
